import Mathlib

/-!
Verification of the PoMo substitution-model core (src/model/modelpomo.cpp).

The numeric computations of the C++ source (done in `double`) are embedded
over `ℚ`: every arithmetic identity claimed by the specification is a real
identity, not a floating-point approximation.  Integer state ids, allele
ids and counts become `ℕ`; the sentinel value `-1` used by the source for
"unknown nucleotide" becomes `Option.none`.  External collaborators (the
underlying 4-state mutation model, the alignment) enter as parameters:
the adapter through its Q matrix / stationary frequencies / parameter
count, the alignment through decoded per-pattern records.
-/

namespace IQTreePoMo

/-- Number of alleles, `n_alleles = 4` in the source (DNA). -/
def nAlleles : ℕ := 4

/-- Total number of PoMo states, `4 + 6*(N-1)` (`num_states` in the source,
checked by the `ASSERT` in `ModelPoMo::init`). -/
def numStates (N : ℕ) : ℕ := 4 + 6 * (N - 1)

/-- Embedding of the free function `harmonic(int n)`:
the n-th harmonic number `1/1 + 1/2 + ... + 1/n`. -/
def harmonic (n : ℕ) : ℚ := ∑ i in Finset.range n, 1 / ((i : ℚ) + 1)

/-- First nucleotide of the p-th allele pair, in the fixed band order
AC, AG, AT, CG, CT, GT of `ModelPoMo::decomposeState`. -/
def pairNt1 : ℕ → ℕ
  | 0 => 0
  | 1 => 0
  | 2 => 0
  | 3 => 1
  | 4 => 1
  | _ => 2

/-- Second nucleotide of the p-th allele pair (band order AC, AG, AT, CG, CT, GT). -/
def pairNt2 : ℕ → ℕ
  | 0 => 1
  | 1 => 2
  | 2 => 3
  | 3 => 2
  | 4 => 3
  | _ => 3

/-- Embedding of `ModelPoMo::decomposeState(state, i, nt1, nt2)`.
Returns `(i, nt1, nt2)`; the source writes `nt2 = -1` for a boundary state,
embedded here as `none`.  The `outError("State exceeds limit")` branch is
embedded as `none` (decomposition fails). -/
def decomposeState (N state : ℕ) : Option (ℕ × ℕ × Option ℕ) :=
  if state < 4 then some (N, state, none)
  else if state < 4 + (N - 1) then some (state - 3, 0, some 1)
  else if state < 4 + 2 * (N - 1) then some (state - 3 - (N - 1), 0, some 2)
  else if state < 4 + 3 * (N - 1) then some (state - 3 - 2 * (N - 1), 0, some 3)
  else if state < 4 + 4 * (N - 1) then some (state - 3 - 3 * (N - 1), 1, some 2)
  else if state < 4 + 5 * (N - 1) then some (state - 3 - 4 * (N - 1), 1, some 3)
  else if state < 4 + 6 * (N - 1) then some (state - 3 - 5 * (N - 1), 2, some 3)
  else none

/-- The id of the polymorphic state with allele-pair index `p` and count `i`:
the spec formula `4 + pair_index*(N-1) + (i-1)` (section 3 of the spec,
quoted by claim C5). -/
def composeState (N p i : ℕ) : ℕ := 4 + p * (N - 1) + (i - 1)

/-- Embedding of `ModelPoMo::isBoundary`. -/
def isBoundary (state : ℕ) : Bool := state < 4

/-- Embedding of `ModelPoMo::mutCoeff(nt1, nt2)`: an entry of
`mutation_rate_matrix` (the matrix `m`, passed as a function). -/
def mutCoeff (m : ℕ → ℕ → ℚ) (nt1 nt2 : ℕ) : ℚ := m nt1 nt2

/-- Embedding of `ModelPoMo::computeProbBoundaryMutation(state1, state2)`.
Parameters: `N` the virtual population size, `m` the mutation rate matrix,
`pi` the boundary state frequencies (`freq_boundary_states`).
The conditional chain mirrors the source exactly; comparisons with the
sentinel `-1` become comparisons with `none`.  On states the source would
abort on (out of range) the value is 0, and the inner `match` default 0
covers the argument combination `nt2 = -1` together with `nt4 = -1`,
which the source never reaches for two distinct in-range states. -/
def computeProbBoundaryMutation (N : ℕ) (m : ℕ → ℕ → ℚ) (pi : ℕ → ℚ)
    (state1 state2 : ℕ) : ℚ :=
  match decomposeState N state1, decomposeState N state2 with
  | some (i1, nt1, nt2), some (i2, nt3, nt4) =>
    if nt1 = nt3 ∧ (nt2 = nt4 ∨ nt2 = none ∨ nt4 = none) then
      if i1 + 1 = i2 then (i1 : ℚ) * ((N : ℚ) - (i1 : ℚ)) / (N : ℚ)
      else if i1 = i2 + 1 then
        if nt2 = none then
          match nt4 with
          | some c => mutCoeff m nt1 c * pi c
          | none => 0
        else (i1 : ℚ) * ((N : ℚ) - (i1 : ℚ)) / (N : ℚ)
      else 0
    else if nt4 = some nt1 ∧ nt2 = none ∧ i2 = 1 then mutCoeff m nt1 nt3 * pi nt3
    else if nt2 = some nt3 ∧ i1 = 1 ∧ nt4 = none then
      (i1 : ℚ) * ((N : ℚ) - (i1 : ℚ)) / (N : ℚ)
    else 0
  | _, _ => 0

/-- Embedding of `ModelPoMo::computeSumFreqBoundaryStates`. -/
def computeSumFreqBoundaryStates (pi : ℕ → ℚ) : ℚ := ∑ i in Finset.range 4, pi i

/-- Embedding of `ModelPoMo::computeSumFreqPolyStatesNoMut`. -/
def computeSumFreqPolyStatesNoMut (N : ℕ) (pi : ℕ → ℚ) : ℚ :=
  (∑ i in Finset.range 4, ∑ j in Finset.range i, 2 * pi i * pi j) * harmonic (N - 1)

/-- Embedding of `ModelPoMo::computeSumFreqPolyStates`; `r` is the
symmetric mutation rate matrix `mutation_rate_matrix_sym`. -/
def computeSumFreqPolyStates (N : ℕ) (pi : ℕ → ℚ) (r : ℕ → ℕ → ℚ) : ℚ :=
  (∑ i in Finset.range 4, ∑ j in Finset.range i, 2 * pi i * pi j * r i j) * harmonic (N - 1)

/-- Embedding of `ModelPoMo::computeNormConst`. -/
def computeNormConst (N : ℕ) (pi : ℕ → ℚ) (r : ℕ → ℕ → ℚ) : ℚ :=
  1 / (computeSumFreqBoundaryStates pi + computeSumFreqPolyStates N pi r)

/-- Embedding of `ModelPoMo::computeStateFreq`, per state: the entry
`state_freq[state]` it writes.  `r` and `f` are the symmetric and
antisymmetric mutation rate components, `pi` the boundary frequencies.
The wildcard row covers the decompositions the loop never sees
(an in-range non-boundary state always decomposes with a second allele). -/
def stateFreq (N : ℕ) (pi : ℕ → ℚ) (r f : ℕ → ℕ → ℚ) (state : ℕ) : ℚ :=
  if state < 4 then pi state * computeNormConst N pi r
  else
    match decomposeState N state with
    | some (i, a, some b) =>
        computeNormConst N pi r * pi a * pi b *
          (r a b * (1 / (i : ℚ) + 1 / ((N : ℚ) - (i : ℚ))) +
           -(f a b) * (1 / (i : ℚ) - 1 / ((N : ℚ) - (i : ℚ))))
    | _ => 0

/-- The off-diagonal row sum `row_sum` accumulated for row `i` by
`ModelPoMo::updatePoMoStatesAndRateMatrix`. -/
def rowSumOffDiag (N : ℕ) (m : ℕ → ℕ → ℚ) (pi : ℕ → ℚ) (i : ℕ) : ℚ :=
  ∑ j in Finset.range (numStates N),
    if j = i then 0 else computeProbBoundaryMutation N m pi i j

/-- The rate matrix as filled by `ModelPoMo::updatePoMoStatesAndRateMatrix`
before the final division by `tot_sum`: off-diagonal entries from
`computeProbBoundaryMutation`, diagonal entries minus the row sum. -/
def preRateMatrix (N : ℕ) (m : ℕ → ℕ → ℚ) (pi : ℕ → ℚ) (i j : ℕ) : ℚ :=
  if i = j then -(rowSumOffDiag N m pi i) else computeProbBoundaryMutation N m pi i j

/-- The accumulated `tot_sum` of `ModelPoMo::updatePoMoStatesAndRateMatrix`:
the frequency-weighted total transition rate, with `state_freq` freshly
computed by `computeStateFreq` at the top of the function. -/
def totalRate (N : ℕ) (m : ℕ → ℕ → ℚ) (pi : ℕ → ℚ) (r f : ℕ → ℕ → ℚ) : ℚ :=
  ∑ i in Finset.range (numStates N), stateFreq N pi r f i * rowSumOffDiag N m pi i

/-- The final `rate_matrix` produced by
`ModelPoMo::updatePoMoStatesAndRateMatrix`: every entry divided by `tot_sum`. -/
def rateMatrix (N : ℕ) (m : ℕ → ℕ → ℚ) (pi : ℕ → ℚ) (r f : ℕ → ℕ → ℚ) (i j : ℕ) : ℚ :=
  preRateMatrix N m pi i j / totalRate N m pi r f

/-- The matrix `m` of `ModelPoMo::normalizeMutationRates` right after
`mutation_model->getQMatrix(m)` and the division of column `j` by `pi[j]`:
`Q` is the adapter's Q matrix, `pi` its stationary frequency vector
(aliased with `freq_boundary_states` in the source). -/
def mutationRatesRaw (Q : ℕ → ℕ → ℚ) (pi : ℕ → ℚ) (i j : ℕ) : ℚ := Q i j / pi j

/-- The symmetric component `r = (m + mᵗ)/2` computed by
`ModelPoMo::normalizeMutationRates`. -/
def mutationRatesSym (Q : ℕ → ℕ → ℚ) (pi : ℕ → ℚ) (i j : ℕ) : ℚ :=
  (mutationRatesRaw Q pi i j + mutationRatesRaw Q pi j i) / 2

/-- The antisymmetric component `f` computed by
`ModelPoMo::normalizeMutationRates` when the model is not reversible
(zero diagonal, `(m - mᵗ)/2` off the diagonal); for a reversible model
`f` keeps the zeros written by the `memset` in `setInitialMutCoeff`. -/
def mutationRatesAsy (Q : ℕ → ℕ → ℚ) (pi : ℕ → ℚ) (isRev : Bool) (i j : ℕ) : ℚ :=
  if isRev then 0
  else if i = j then 0
  else (mutationRatesRaw Q pi i j - mutationRatesRaw Q pi j i) / 2

/-- The quantity `theta_bm = poly / harmonic(N-1)` of
`ModelPoMo::normalizeMutationRates` (pre-scaling polymorphism mass). -/
def thetaBM (N : ℕ) (Q : ℕ → ℕ → ℚ) (pi : ℕ → ℚ) : ℚ :=
  computeSumFreqPolyStates N pi (mutationRatesSym Q pi) / harmonic (N - 1)

/-- The scale factor `m_norm = theta / (theta_bm * (correction - harmonic(N-1)*theta))`
of `ModelPoMo::normalizeMutationRates`, with the hard-coded
`correction = 1.0` (sampling without replacement). -/
def mNormFactor (N : ℕ) (Q : ℕ → ℕ → ℚ) (pi : ℕ → ℚ) (theta : ℚ) : ℚ :=
  theta / (thetaBM N Q pi * (1 - harmonic (N - 1) * theta))

/-- The symmetric component after the rescaling loop of
`ModelPoMo::normalizeMutationRates` (`r[i*n+j] *= m_norm`). -/
def mutationRatesSymNormalized (N : ℕ) (Q : ℕ → ℕ → ℚ) (pi : ℕ → ℚ) (theta : ℚ)
    (i j : ℕ) : ℚ :=
  mNormFactor N Q pi theta * mutationRatesSym Q pi i j

/-- The raw mutation matrix after the rescaling loop (`m[i*n+j] *= m_norm`). -/
def mutationRatesRawNormalized (N : ℕ) (Q : ℕ → ℕ → ℚ) (pi : ℕ → ℚ) (theta : ℚ)
    (i j : ℕ) : ℚ :=
  mNormFactor N Q pi theta * mutationRatesRaw Q pi i j

/-- The antisymmetric component after the rescaling loop (`f[i*n+j] *= m_norm`). -/
def mutationRatesAsyNormalized (N : ℕ) (Q : ℕ → ℕ → ℚ) (pi : ℕ → ℚ) (isRev : Bool)
    (theta : ℚ) (i j : ℕ) : ℚ :=
  mNormFactor N Q pi theta * mutationRatesAsy Q pi isRev i j

/-- One decoded weighted-mode observation: the source decodes each pattern
entry of `phylo_tree->aln->pomo_states` into two allele ids `id1`, `id2`
and their counts `j1`, `j2`, weighted by the pattern frequency `freq`
(lines 758-763 and 807-814 of modelpomo.cpp). -/
structure PoMoObs where
  id1 : ℕ
  id2 : ℕ
  j1 : ℕ
  j2 : ℕ
  freq : ℕ
deriving DecidableEq, Repr

/-- Embedding of the sampled-mode branch of
`ModelPoMo::estimateEmpiricalWattersonTheta`: `absFreq` is the absolute
state frequency vector; `sum_fix` sums states `0..3`, `sum_pol` the rest,
and the estimate is `sum_pol / (sum_fix + sum_pol)`. -/
def estimateWattersonSampled (N : ℕ) (absFreq : ℕ → ℕ) : ℚ :=
  ((∑ i in Finset.Ico 4 (numStates N), absFreq i : ℕ) : ℚ) /
    (((∑ i in Finset.range 4, absFreq i) + (∑ i in Finset.Ico 4 (numStates N), absFreq i) : ℕ) : ℚ)

/-- One iteration of the weighted-mode loop of
`ModelPoMo::estimateEmpiricalWattersonTheta` on the accumulator
`(sum_fix, sum_pol, sum_theta_w)`. -/
def wattersonStep (acc : ℕ × ℕ × ℚ) (e : PoMoObs) : ℕ × ℕ × ℚ :=
  if e.j2 = 0 then (acc.1 + e.freq, acc.2.1, acc.2.2)
  else (acc.1, acc.2.1 + e.freq, acc.2.2 + (e.freq : ℚ) / harmonic (e.j1 + e.j2 - 1))

/-- Embedding of the weighted-mode branch of
`ModelPoMo::estimateEmpiricalWattersonTheta`: fold the loop over the
decoded observations, then return `sum_theta_w / (sum_fix + sum_pol)`. -/
def estimateWattersonWeighted (obs : List PoMoObs) : ℚ :=
  ((obs.foldl wattersonStep (0, 0, 0)).2.2 : ℚ) /
    (((obs.foldl wattersonStep (0, 0, 0)).1 : ℚ) + ((obs.foldl wattersonStep (0, 0, 0)).2.1 : ℚ))

/-- The unnormalized boundary-allele weights accumulated by the
weighted-mode branch of `ModelPoMo::estimateEmpiricalBoundaryStateFreqs`
(`freq_boundary_states[id1] += j1*frequency; freq_boundary_states[id2] += j2*frequency`). -/
def rawBoundaryFreqs (obs : List PoMoObs) (a : ℕ) : ℚ :=
  (obs.map (fun e =>
    (if e.id1 = a then ((e.j1 * e.freq : ℕ) : ℚ) else 0) +
    (if e.id2 = a then ((e.j2 * e.freq : ℕ) : ℚ) else 0))).sum

/-- The normalization step of `ModelPoMo::normalize_boundary_freqs`
(divide each entry by the total); the subsequent clamping step of
`check_boundary_freqs` is omitted here: its band constants live in the
header outside src/, and clamping into a positive band can only keep all
four entries positive. -/
def normalizeBoundaryFreqs (bf : ℕ → ℚ) (a : ℕ) : ℚ :=
  bf a / (∑ i in Finset.range 4, bf i)

/-- Whether a decoded dataset contains any polymorphic observation
(an entry whose second allele count `j2` is nonzero). -/
def hasPolymorphicObs (obs : List PoMoObs) : Bool :=
  obs.any (fun e => decide (e.j2 ≠ 0))

/-- Embedding of the polymorphism check of `ModelPoMo::setInitialMutCoeff`
(lines 232-239): returns `true` when setup passes the check, `false` when
the fatal `outError` is raised, which happens exactly when theta is not
fixed and `computeSumFreqPolyStatesNoMut() <= 0`. -/
def setInitialMutCoeffPasses (fixedTheta : Bool) (N : ℕ) (pi : ℕ → ℚ) : Bool :=
  !(!fixedTheta && decide (computeSumFreqPolyStatesNoMut N pi ≤ 0))

/-- The matrix-exponential techniques of `params->matrix_exp_technique`
distinguished by `ModelPoMo::decomposeRateMatrix`. -/
inductive MatrixExpTechnique where
  | MET_SCALING_SQUARING
  | MET_EIGEN_DECOMPOSITION
  | MET_EIGEN3LIB_DECOMPOSITION
  | MET_LIE_MARKOV_DECOMPOSITION
deriving DecidableEq, Repr

/-- What `ModelPoMo::decomposeRateMatrix` does after rebuilding the rate
matrix: the symmetric eigensystem (`eigensystem_sym`), the general
non-reversible eigensystem (`eigensystem_nonrev`), or nothing at all
(scaling-and-squaring defers the decomposition). -/
inductive DecomposeAction where
  | symEigen
  | nonrevEigen
  | deferEigen
deriving DecidableEq, Repr

/-- Embedding of the dispatch performed by `ModelPoMo::decomposeRateMatrix`
(after its unconditional call to `updatePoMoStatesAndRateMatrix`):
`Except.error` models the fatal `outError` calls, with the source's
message strings. -/
def decomposeRateMatrixDispatch (isRev : Bool) (tech : MatrixExpTechnique) :
    Except String DecomposeAction :=
  if !isRev then
    match tech with
    | .MET_EIGEN_DECOMPOSITION => .ok .nonrevEigen
    | .MET_SCALING_SQUARING => .ok .deferEigen
    | .MET_EIGEN3LIB_DECOMPOSITION =>
        .error "MET_EIGEN3LIB_DECOMPOSITION does not work with PoMo."
    | .MET_LIE_MARKOV_DECOMPOSITION =>
        .error "Matrix decomposition in closed form not available for PoMo."
  else .ok .symEigen

/-- Embedding of `ModelPoMo::getNDim`: the adapter's parameter count
`adapterNDim`, plus one when theta is not fixed. -/
def getNDim (fixedTheta : Bool) (adapterNDim : ℕ) : ℕ :=
  if fixedTheta then adapterNDim else adapterNDim + 1

/-- The internal calls `ModelPoMo::getVariables` makes, in source order:
the adapter's `getVariables`, then `normalizeMutationRates()`, then
`updatePoMoStatesAndRateMatrix()`.  There is no call to
`decomposeRateMatrix` in its body. -/
inductive PomoCall where
  | adapterGetVars
  | normalizeRates
  | rebuildRateMatrix
  | eigenDecompose
deriving DecidableEq, Repr

/-- The call sequence of `ModelPoMo::getVariables` (lines 572-585). -/
def pomoGetVariablesCalls : List PomoCall :=
  [.adapterGetVars, .normalizeRates, .rebuildRateMatrix]

/-- The new value of `theta` after `ModelPoMo::getVariables(variables)`:
`variables[ndim]` with `ndim = getNDim()` when theta is not fixed,
unchanged otherwise.  `v` is the 1-indexed variables array. -/
def pomoGetVariablesTheta (fixedTheta : Bool) (adapterNDim : ℕ) (theta : ℚ)
    (v : ℕ → ℚ) : ℚ :=
  if fixedTheta then theta else v (getNDim fixedTheta adapterNDim)

/-- The `changed` flag returned by `ModelPoMo::getVariables`:
the adapter's flag, or-ed (when theta is not fixed) with the comparison
`theta != variables[ndim+1]` the source performs before overwriting
`theta` with `variables[ndim]`. -/
def pomoGetVariablesChanged (fixedTheta : Bool) (adapterNDim : ℕ)
    (adapterChanged : Bool) (theta : ℚ) (v : ℕ → ℚ) : Bool :=
  if fixedTheta then adapterChanged
  else adapterChanged || decide (theta ≠ v (getNDim fixedTheta adapterNDim + 1))

/-- Embedding of `ModelPoMo::setVariables(variables)`: `w` is the array
after the adapter's `setVariables` wrote its own parameters (indices
`1..adapterNDim`); when theta is not fixed the source then writes
`variables[ndim] = theta` with `ndim = getNDim()`. -/
def pomoSetVariables (fixedTheta : Bool) (adapterNDim : ℕ) (theta : ℚ)
    (w : ℕ → ℚ) : ℕ → ℚ :=
  if fixedTheta then w
  else fun k => if k = getNDim fixedTheta adapterNDim then theta else w k

/-- Claim-side definition for C2, following the claim's wording: drift
rate `count1*(N-count1)/N` for same-pair states with counts differing by
one (including a polymorphic state with an allele at count 1 collapsing
to the boundary state of its other allele), mutation rate
`mutCoeff(nt_from, nt_to) * boundaryFrequency(nt_to)` for a boundary
state entering a polymorphic state that contains its allele with the new
allele at count 1, and 0 for every other pair. -/
def claimTransitionRate (N : ℕ) (m : ℕ → ℕ → ℚ) (pi : ℕ → ℚ) (s1 s2 : ℕ) : ℚ :=
  match decomposeState N s1, decomposeState N s2 with
  | some (i1, a1, some b1), some (i2, a2, some b2) =>
      if a1 = a2 ∧ b1 = b2 ∧ (i2 = i1 + 1 ∨ i1 = i2 + 1) then
        (i1 : ℚ) * ((N : ℚ) - (i1 : ℚ)) / (N : ℚ)
      else 0
  | some (i1, a1, some b1), some (_, a2, none) =>
      if (a2 = b1 ∧ i1 = 1) ∨ (a2 = a1 ∧ i1 = N - 1) then
        (i1 : ℚ) * ((N : ℚ) - (i1 : ℚ)) / (N : ℚ)
      else 0
  | some (_, a1, none), some (i2, a2, some b2) =>
      if a2 = a1 ∧ i2 = N - 1 then mutCoeff m a1 b2 * pi b2
      else if b2 = a1 ∧ i2 = 1 then mutCoeff m a1 a2 * pi a2
      else 0
  | _, _ => 0

/-- Concrete boundary-frequency vector (uniform) used by witnesses. -/
def piUnif : ℕ → ℚ := fun _ => 1 / 4

/-- Concrete mutation rate matrix (all ones) used by witnesses. -/
def mOnes : ℕ → ℕ → ℚ := fun _ _ => 1

/-- Concrete symmetric rate component (all ones) used by witnesses. -/
def rOnes : ℕ → ℕ → ℚ := fun _ _ => 1

/-- Concrete antisymmetric rate component (all zeros) used by witnesses. -/
def fZero : ℕ → ℕ → ℚ := fun _ _ => 0

/-- Concrete adapter Q matrix (Jukes-Cantor-like) used by witnesses. -/
def qJC : ℕ → ℕ → ℚ := fun i j => if i = j then -3 else 1

/-- Concrete weighted-mode dataset with sites fixed for two different
alleles and no polymorphic site (every `j2` is 0): five patterns of two
A's and five patterns of two C's. -/
def noPolyTwoAlleleObs : List PoMoObs :=
  [⟨0, 1, 2, 0, 5⟩, ⟨1, 0, 2, 0, 5⟩]

lemma decomposeState_boundary (N s : ℕ) (hs : s < 4) :
    decomposeState N s = some (N, s, none) := by
  unfold decomposeState
  rw [if_pos hs]

set_option maxHeartbeats 1600000 in
lemma decomposeState_poly (N p k : ℕ) (h2 : 2 ≤ N) (hp : p < 6) (hk : k < N - 1) :
    decomposeState N (4 + p * (N - 1) + k) = some (k + 1, pairNt1 p, some (pairNt2 p)) := by
  interval_cases p <;>
  · simp only [decomposeState, pairNt1, pairNt2]
    split_ifs <;>
      first
        | (exfalso; omega)
        | (simp only [Option.some.injEq, Prod.mk.injEq, and_true, true_and]; omega)

lemma poly_state_rep (N s : ℕ) (h2 : 2 ≤ N) (h4 : 4 ≤ s) (hs : s < numStates N) :
    ∃ p k, p < 6 ∧ k < N - 1 ∧ s = 4 + p * (N - 1) + k := by
  have hd : 0 < N - 1 := by omega
  refine ⟨(s - 4) / (N - 1), (s - 4) % (N - 1), ?_, Nat.mod_lt _ hd, ?_⟩
  · have hlt : s - 4 < 6 * (N - 1) := by
      unfold numStates at hs
      omega
    have := (Nat.div_lt_iff_lt_mul hd).2 (by omega : s - 4 < 6 * (N - 1))
    exact this
  · have hmod := Nat.div_add_mod (s - 4) (N - 1)
    rw [Nat.mul_comm] at hmod
    omega

lemma pairNt_lt (p : ℕ) (hp : p < 6) : pairNt1 p < pairNt2 p := by
  interval_cases p <;> simp [pairNt1, pairNt2]

lemma pairNt_inj (p q : ℕ) (hp : p < 6) (hq : q < 6)
    (h1 : pairNt1 p = pairNt1 q) (h2 : pairNt2 p = pairNt2 q) : p = q := by
  interval_cases p <;> interval_cases q <;> simp_all [pairNt1, pairNt2]

lemma cpbm_boundary_boundary (N : ℕ) (m : ℕ → ℕ → ℚ) (pi : ℕ → ℚ)
    (s1 s2 : ℕ) (hb1 : s1 < 4) (hb2 : s2 < 4) (hne : s1 ≠ s2) :
    computeProbBoundaryMutation N m pi s1 s2 = 0 ∧
    claimTransitionRate N m pi s1 s2 = 0 := by
  constructor <;>
    simp only [computeProbBoundaryMutation, claimTransitionRate,
      decomposeState_boundary N s1 hb1, decomposeState_boundary N s2 hb2] <;>
    simp [hne]

set_option maxRecDepth 8000 in
lemma cpbm_boundary_poly (N : ℕ) (m : ℕ → ℕ → ℚ) (pi : ℕ → ℚ) (h2 : 2 ≤ N)
    (s1 p k : ℕ) (hb1 : s1 < 4) (hp : p < 6) (hk : k < N - 1) :
    computeProbBoundaryMutation N m pi s1 (4 + p * (N - 1) + k) =
      claimTransitionRate N m pi s1 (4 + p * (N - 1) + k) := by
  have hlt := pairNt_lt p hp
  simp only [computeProbBoundaryMutation, claimTransitionRate,
    decomposeState_boundary N s1 hb1, decomposeState_poly N p k h2 hp hk]
  have hplus : ¬(N + 1 = k + 1) := by omega
  by_cases ha : s1 = pairNt1 p
  · by_cases hk2 : k = N - 2
    · simp [mutCoeff, ha, hplus, iff_true_intro (show N = k + 1 + 1 by omega),
        iff_true_intro (show k + 1 = N - 1 by omega)]
    · simp [mutCoeff, ha, hplus, show ¬(N = k + 1 + 1) by omega,
        show ¬(k + 1 = N - 1) by omega,
        show pairNt2 p ≠ pairNt1 p by omega]
  · have ha' : pairNt1 p ≠ s1 := fun h => ha h.symm
    by_cases hbb : pairNt2 p = s1
    · by_cases hk0 : k = 0
      · simp [mutCoeff, ha, ha', hbb, hk0]
      · simp [mutCoeff, ha, ha', hbb, hk0]
    · simp [mutCoeff, ha, ha', hbb]

set_option maxRecDepth 8000 in
lemma cpbm_poly_boundary (N : ℕ) (m : ℕ → ℕ → ℚ) (pi : ℕ → ℚ) (h2 : 2 ≤ N)
    (p k s2 : ℕ) (hp : p < 6) (hk : k < N - 1) (hb2 : s2 < 4) :
    computeProbBoundaryMutation N m pi (4 + p * (N - 1) + k) s2 =
      claimTransitionRate N m pi (4 + p * (N - 1) + k) s2 := by
  have hlt := pairNt_lt p hp
  simp only [computeProbBoundaryMutation, claimTransitionRate,
    decomposeState_boundary N s2 hb2, decomposeState_poly N p k h2 hp hk]
  by_cases ha : pairNt1 p = s2
  · have hb2ne : ¬(s2 = pairNt2 p) := by omega
    by_cases hk2 : k = N - 2
    · simp [ha, hb2ne, iff_true_intro (show k + 1 + 1 = N by omega),
        iff_true_intro (show s2 = pairNt1 p from ha.symm),
        iff_true_intro (show k + 1 = N - 1 by omega)]
    · simp [ha, hb2ne, show ¬(k + 1 + 1 = N) by omega,
        show ¬(k + 1 = N + 1) by omega, show ¬(k + 1 = N - 1) by omega]
  · have ha' : ¬(s2 = pairNt1 p) := fun h => ha h.symm
    by_cases hbb : pairNt2 p = s2
    · by_cases hk0 : k = 0
      · simp [ha, ha', hbb, hk0, iff_true_intro (show s2 = pairNt2 p from hbb.symm)]
      · simp [ha, ha', hbb, hk0, show ¬(k + 1 = 1) by omega,
          iff_true_intro (show s2 = pairNt2 p from hbb.symm)]
    · simp [ha, ha', hbb, show ¬(s2 = pairNt2 p) from fun h => hbb h.symm]

set_option maxRecDepth 8000 in
lemma cpbm_poly_poly (N : ℕ) (m : ℕ → ℕ → ℚ) (pi : ℕ → ℚ) (h2 : 2 ≤ N)
    (p1 k1 p2 k2 : ℕ) (hp1 : p1 < 6) (hk1 : k1 < N - 1) (hp2 : p2 < 6)
    (hk2 : k2 < N - 1) (hne : ¬(p1 = p2 ∧ k1 = k2)) :
    computeProbBoundaryMutation N m pi (4 + p1 * (N - 1) + k1) (4 + p2 * (N - 1) + k2) =
      claimTransitionRate N m pi (4 + p1 * (N - 1) + k1) (4 + p2 * (N - 1) + k2) := by
  simp only [computeProbBoundaryMutation, claimTransitionRate,
    decomposeState_poly N p1 k1 h2 hp1 hk1, decomposeState_poly N p2 k2 h2 hp2 hk2]
  by_cases hpp : p1 = p2
  · subst hpp
    have hkk : k1 ≠ k2 := fun h => hne ⟨rfl, h⟩
    by_cases h12 : k2 = k1 + 1
    · simp [iff_true_intro (show k1 + 1 + 1 = k2 + 1 by omega),
        iff_true_intro (show k2 + 1 = k1 + 1 + 1 by omega)]
    · by_cases h21 : k1 = k2 + 1
      · simp [show ¬(k1 + 1 + 1 = k2 + 1) by omega,
          show ¬(k2 + 1 = k1 + 1 + 1) by omega,
          iff_true_intro (show k1 + 1 = k2 + 1 + 1 by omega)]
      · simp [show ¬(k1 + 1 + 1 = k2 + 1) by omega,
          show ¬(k2 + 1 = k1 + 1 + 1) by omega,
          show ¬(k1 + 1 = k2 + 1 + 1) by omega]
  · by_cases hA : pairNt1 p1 = pairNt1 p2
    · have hB : pairNt2 p1 ≠ pairNt2 p2 :=
        fun h => hpp (pairNt_inj p1 p2 hp1 hp2 hA h)
      simp [hA, hB]
    · simp [hA]

/-- C2: for every pair of distinct valid states, the transition rate
computed by computeProbBoundaryMutation equals the rate described by the
claim (claimTransitionRate): the drift formula count1*(N-count1)/N for
same-pair states with counts differing by one, including the collapse of a
polymorphic state with an allele at count 1 to the boundary state of its
other allele; mutCoeff(nt_from, nt_to)*boundaryFrequency(nt_to) for a
boundary state entering a count-1 polymorphic state containing its allele;
and 0 for every other pair. -/
theorem computeProbBoundaryMutation_characterization
    (N : ℕ) (m : ℕ → ℕ → ℚ) (pi : ℕ → ℚ) (h2 : 2 ≤ N) (s1 s2 : ℕ)
    (hs1 : s1 < numStates N) (hs2 : s2 < numStates N) (hne : s1 ≠ s2) :
    computeProbBoundaryMutation N m pi s1 s2 = claimTransitionRate N m pi s1 s2 := by
  by_cases hb1 : s1 < 4 <;> by_cases hb2 : s2 < 4
  · obtain ⟨hc1, hc2⟩ := cpbm_boundary_boundary N m pi s1 s2 hb1 hb2 hne
    rw [hc1, hc2]
  · obtain ⟨p, k, hp, hk, rfl⟩ := poly_state_rep N s2 h2 (by omega) hs2
    exact cpbm_boundary_poly N m pi h2 s1 p k hb1 hp hk
  · obtain ⟨p, k, hp, hk, rfl⟩ := poly_state_rep N s1 h2 (by omega) hs1
    exact cpbm_poly_boundary N m pi h2 p k s2 hp hk hb2
  · obtain ⟨p1, k1, hp1, hk1, rfl⟩ := poly_state_rep N s1 h2 (by omega) hs1
    obtain ⟨p2, k2, hp2, hk2, rfl⟩ := poly_state_rep N s2 h2 (by omega) hs2
    refine cpbm_poly_poly N m pi h2 p1 k1 p2 k2 hp1 hk1 hp2 hk2 ?_
    rintro ⟨rfl, rfl⟩
    exact hne rfl

/-- Witness for C2 at N = 2 on the concrete pair (boundary A, polymorphic
1A1C): the characterization applies and both sides evaluate to
mutCoeff(A,C) * pi(C) = 1/4 for the all-ones matrix and uniform
frequencies. -/
theorem computeProbBoundaryMutation_characterization_witness :
    computeProbBoundaryMutation 2 mOnes piUnif 0 4 = claimTransitionRate 2 mOnes piUnif 0 4 ∧
    computeProbBoundaryMutation 2 mOnes piUnif 0 4 = 1 / 4 :=
  ⟨computeProbBoundaryMutation_characterization 2 mOnes piUnif (by decide) 0 4
      (by decide) (by decide) (by decide),
    by norm_num [computeProbBoundaryMutation, decomposeState, mutCoeff, mOnes, piUnif]⟩

lemma harmonic_nonneg (n : ℕ) : 0 ≤ harmonic n := by
  unfold harmonic
  apply Finset.sum_nonneg
  intro i _
  positivity

lemma harmonic_pos (n : ℕ) (hn : 1 ≤ n) : 0 < harmonic n := by
  unfold harmonic
  apply Finset.sum_pos
  · intro i _
    positivity
  · exact ⟨0, Finset.mem_range.mpr (by omega)⟩

lemma sum_inv_reflect (n : ℕ) :
    ∑ k in Finset.range n, 1 / ((n : ℚ) - (k : ℚ)) = harmonic n := by
  rw [harmonic, ← Finset.sum_range_reflect (fun j => 1 / ((j : ℚ) + 1)) n]
  apply Finset.sum_congr rfl
  intro k hk
  have hk' : k < n := Finset.mem_range.mp hk
  have h1 : n - 1 - k = n - (k + 1) := by omega
  rw [h1, Nat.cast_sub (by omega : k + 1 ≤ n)]
  push_cast
  ring_nf

lemma sum_range_six_blocks (g : ℕ → ℚ) (q : ℕ) :
    ∑ j in Finset.range (6 * q), g j
      = ∑ p in Finset.range 6, ∑ k in Finset.range q, g (p * q + k) := by
  rw [show (6 : ℕ) * q = q + (q + (q + (q + (q + q)))) by ring]
  rw [Finset.sum_range_add, Finset.sum_range_add, Finset.sum_range_add,
    Finset.sum_range_add, Finset.sum_range_add]
  rw [Finset.sum_range_succ, Finset.sum_range_succ, Finset.sum_range_succ,
    Finset.sum_range_succ, Finset.sum_range_succ, Finset.sum_range_succ,
    Finset.sum_range_zero]
  have b0 : (∑ k in Finset.range q, g (0 * q + k)) = ∑ k in Finset.range q, g k :=
    Finset.sum_congr rfl (fun k _ => by rw [show 0 * q + k = k by ring])
  have b1 : (∑ k in Finset.range q, g (1 * q + k)) = ∑ k in Finset.range q, g (q + k) :=
    Finset.sum_congr rfl (fun k _ => by rw [show 1 * q + k = q + k by ring])
  have b2 : (∑ k in Finset.range q, g (2 * q + k))
      = ∑ k in Finset.range q, g (q + (q + k)) :=
    Finset.sum_congr rfl (fun k _ => by rw [show 2 * q + k = q + (q + k) by ring])
  have b3 : (∑ k in Finset.range q, g (3 * q + k))
      = ∑ k in Finset.range q, g (q + (q + (q + k))) :=
    Finset.sum_congr rfl (fun k _ => by rw [show 3 * q + k = q + (q + (q + k)) by ring])
  have b4 : (∑ k in Finset.range q, g (4 * q + k))
      = ∑ k in Finset.range q, g (q + (q + (q + (q + k)))) :=
    Finset.sum_congr rfl (fun k _ => by
      rw [show 4 * q + k = q + (q + (q + (q + k))) by ring])
  have b5 : (∑ k in Finset.range q, g (5 * q + k))
      = ∑ k in Finset.range q, g (q + (q + (q + (q + (q + k))))) :=
    Finset.sum_congr rfl (fun k _ => by
      rw [show 5 * q + k = q + (q + (q + (q + (q + k)))) by ring])
  rw [b0, b1, b2, b3, b4, b5]
  ring

lemma stateFreq_band_sum (N : ℕ) (pi : ℕ → ℚ) (r f : ℕ → ℕ → ℚ) (p : ℕ)
    (h2 : 2 ≤ N) (hp : p < 6) :
    ∑ k in Finset.range (N - 1), stateFreq N pi r f (4 + p * (N - 1) + k)
      = computeNormConst N pi r * pi (pairNt1 p) * pi (pairNt2 p) *
          (2 * r (pairNt1 p) (pairNt2 p) * harmonic (N - 1)) := by
  have hshape : ∀ k ∈ Finset.range (N - 1),
      stateFreq N pi r f (4 + p * (N - 1) + k)
        = computeNormConst N pi r * pi (pairNt1 p) * pi (pairNt2 p) *
            ((r (pairNt1 p) (pairNt2 p) - f (pairNt1 p) (pairNt2 p)) * (1 / ((k : ℚ) + 1))
             + (r (pairNt1 p) (pairNt2 p) + f (pairNt1 p) (pairNt2 p)) *
                 (1 / (((N - 1 : ℕ) : ℚ) - (k : ℚ)))) := by
    intro k hk
    have hk' : k < N - 1 := Finset.mem_range.mp hk
    unfold stateFreq
    rw [if_neg (by omega : ¬(4 + p * (N - 1) + k < 4)),
      decomposeState_poly N p k h2 hp hk']
    have hcast1 : ((k + 1 : ℕ) : ℚ) = (k : ℚ) + 1 := by push_cast; ring
    have hcast2 : (N : ℚ) - ((k + 1 : ℕ) : ℚ) = ((N - 1 : ℕ) : ℚ) - (k : ℚ) := by
      rw [Nat.cast_sub (by omega : 1 ≤ N)]
      push_cast
      ring
    simp only [hcast1, hcast2]
    push_cast [Nat.cast_sub (show 1 ≤ N by omega)]
    ring
  rw [Finset.sum_congr rfl hshape]
  rw [← Finset.mul_sum, Finset.sum_add_distrib, ← Finset.mul_sum, ← Finset.mul_sum]
  rw [show (∑ k in Finset.range (N - 1), 1 / ((k : ℚ) + 1)) = harmonic (N - 1) from rfl,
    sum_inv_reflect (N - 1)]
  ring

/-- C3: for boundary frequencies with non-negative entries summing to one,
a symmetric rate component r (with non-negative off-diagonal rates) and an
antisymmetric component f, the state-frequency vector computed by
computeStateFreq sums to 1: the f terms cancel over each allele-pair band
and the normalization constant cancels the rest. -/
theorem computeStateFreq_sums_to_one
    (N : ℕ) (pi : ℕ → ℚ) (r f : ℕ → ℕ → ℚ) (h2 : 2 ≤ N)
    (hpi : ∀ i, i < 4 → 0 ≤ pi i) (hsum : ∑ i in Finset.range 4, pi i = 1)
    (hrsym : ∀ a b, r a b = r b a) (hroff : ∀ a b, a ≠ b → 0 ≤ r a b)
    (hf : ∀ a b, f a b = -(f b a)) :
    ∑ s in Finset.range (numStates N), stateFreq N pi r f s = 1 := by
  have hpolysum : 0 ≤ computeSumFreqPolyStates N pi r := by
    unfold computeSumFreqPolyStates
    apply mul_nonneg _ (harmonic_nonneg (N - 1))
    apply Finset.sum_nonneg
    intro i hi
    apply Finset.sum_nonneg
    intro j hj
    have hi4 : i < 4 := Finset.mem_range.mp hi
    have hji : j < i := Finset.mem_range.mp hj
    have := hpi i hi4
    have := hpi j (by omega)
    have := hroff i j (by omega)
    positivity
  have hboundary : ∑ s in Finset.range 4, stateFreq N pi r f s
      = computeNormConst N pi r := by
    have hb : ∀ s ∈ Finset.range 4, stateFreq N pi r f s
        = pi s * computeNormConst N pi r := by
      intro s hs
      unfold stateFreq
      rw [if_pos (Finset.mem_range.mp hs)]
    rw [Finset.sum_congr rfl hb, ← Finset.sum_mul, hsum, one_mul]
  have hbands : ∑ j in Finset.range (6 * (N - 1)), stateFreq N pi r f (4 + j)
      = computeNormConst N pi r * computeSumFreqPolyStates N pi r := by
    rw [sum_range_six_blocks (fun j => stateFreq N pi r f (4 + j)) (N - 1)]
    simp only [show ∀ p k : ℕ, 4 + (p * (N - 1) + k) = 4 + p * (N - 1) + k from
      fun p k => by ring]
    rw [Finset.sum_range_succ, Finset.sum_range_succ, Finset.sum_range_succ,
      Finset.sum_range_succ, Finset.sum_range_succ, Finset.sum_range_succ,
      Finset.sum_range_zero]
    rw [stateFreq_band_sum N pi r f 0 h2 (by omega),
      stateFreq_band_sum N pi r f 1 h2 (by omega),
      stateFreq_band_sum N pi r f 2 h2 (by omega),
      stateFreq_band_sum N pi r f 3 h2 (by omega),
      stateFreq_band_sum N pi r f 4 h2 (by omega),
      stateFreq_band_sum N pi r f 5 h2 (by omega)]
    simp only [pairNt1, pairNt2]
    unfold computeSumFreqPolyStates
    simp only [Finset.sum_range_succ, Finset.sum_range_zero]
    rw [hrsym 1 0, hrsym 2 0, hrsym 2 1, hrsym 3 0, hrsym 3 1, hrsym 3 2]
    ring
  have hZ : computeNormConst N pi r * (1 + computeSumFreqPolyStates N pi r) = 1 := by
    have hne : (1 + computeSumFreqPolyStates N pi r) ≠ 0 := by
      have : (0 : ℚ) < 1 + computeSumFreqPolyStates N pi r := by linarith
      exact ne_of_gt this
    unfold computeNormConst computeSumFreqBoundaryStates
    rw [hsum]
    exact one_div_mul_cancel hne
  calc ∑ s in Finset.range (numStates N), stateFreq N pi r f s
      = ∑ s in Finset.range 4, stateFreq N pi r f s
        + ∑ j in Finset.range (6 * (N - 1)), stateFreq N pi r f (4 + j) := by
        rw [show numStates N = 4 + 6 * (N - 1) from rfl, Finset.sum_range_add]
    _ = computeNormConst N pi r
        + computeNormConst N pi r * computeSumFreqPolyStates N pi r := by
        rw [hboundary, hbands]
    _ = computeNormConst N pi r * (1 + computeSumFreqPolyStates N pi r) := by ring
    _ = 1 := hZ

/-- Witness for C3 at N = 2 with uniform boundary frequencies, all-ones
symmetric component and zero antisymmetric component. -/
theorem computeStateFreq_sums_to_one_witness :
    ∑ s in Finset.range (numStates 2), stateFreq 2 piUnif rOnes fZero s = 1 :=
  computeStateFreq_sums_to_one 2 piUnif rOnes fZero (by omega)
    (fun i _ => by norm_num [piUnif])
    (by norm_num [piUnif, Finset.sum_range_succ])
    (fun a b => rfl) (fun a b _ => by norm_num [rOnes]) (fun a b => by norm_num [fZero])

lemma rowSumOffDiag_erase (N : ℕ) (m : ℕ → ℕ → ℚ) (pi : ℕ → ℚ) (i : ℕ)
    (hi : i < numStates N) :
    rowSumOffDiag N m pi i
      = ∑ j in (Finset.range (numStates N)).erase i,
          computeProbBoundaryMutation N m pi i j := by
  unfold rowSumOffDiag
  rw [← Finset.sum_erase_add _ _ (Finset.mem_range.mpr hi), if_pos rfl, add_zero]
  exact Finset.sum_congr rfl (fun j hj => by rw [if_neg (Finset.ne_of_mem_erase hj)])

lemma ifRow_pre_eq_rowSum (N : ℕ) (m : ℕ → ℕ → ℚ) (pi : ℕ → ℚ) (i : ℕ) :
    (∑ j in Finset.range (numStates N), if j = i then 0 else preRateMatrix N m pi i j)
      = rowSumOffDiag N m pi i := by
  unfold rowSumOffDiag
  apply Finset.sum_congr rfl
  intro j _
  by_cases h : j = i
  · simp [h]
  · rw [if_neg h, if_neg h]
    unfold preRateMatrix
    rw [if_neg (fun hh => h hh.symm)]

/-- C1: the rate matrix built by updatePoMoStatesAndRateMatrix has
off-diagonal entries given by computeProbBoundaryMutation, diagonal entries
equal to minus the off-diagonal row sum (so every row sums to zero, both
before and after the final division by the accumulated total rate), and
after dividing every entry by that total rate the frequency-weighted total
transition rate, weighted by the state frequencies from computeStateFreq,
equals 1. -/
theorem updatePoMoStatesAndRateMatrix_generator
    (N : ℕ) (m : ℕ → ℕ → ℚ) (pi : ℕ → ℚ) (r f : ℕ → ℕ → ℚ)
    (ht : totalRate N m pi r f ≠ 0) :
    (∀ i j, i < numStates N → j < numStates N → i ≠ j →
      preRateMatrix N m pi i j = computeProbBoundaryMutation N m pi i j) ∧
    (∀ i, i < numStates N →
      preRateMatrix N m pi i i
        = -(∑ j in Finset.range (numStates N),
            if j = i then 0 else preRateMatrix N m pi i j)) ∧
    (∀ i, i < numStates N →
      ∑ j in Finset.range (numStates N), rateMatrix N m pi r f i j = 0) ∧
    (∑ i in Finset.range (numStates N),
      stateFreq N pi r f i *
        (∑ j in Finset.range (numStates N),
          if j = i then 0 else rateMatrix N m pi r f i j)) = 1 := by
  refine ⟨?_, ?_, ?_, ?_⟩
  · intro i j _ _ hne
    unfold preRateMatrix
    rw [if_neg hne]
  · intro i _
    rw [ifRow_pre_eq_rowSum]
    unfold preRateMatrix
    rw [if_pos rfl]
  · intro i hi
    have hmem : i ∈ Finset.range (numStates N) := Finset.mem_range.mpr hi
    have hpre : ∑ j in Finset.range (numStates N), preRateMatrix N m pi i j = 0 := by
      rw [← Finset.sum_erase_add _ _ hmem]
      have he : ∑ j in (Finset.range (numStates N)).erase i, preRateMatrix N m pi i j
          = rowSumOffDiag N m pi i := by
        rw [rowSumOffDiag_erase N m pi i hi]
        apply Finset.sum_congr rfl
        intro j hj
        unfold preRateMatrix
        rw [if_neg (fun hh => (Finset.ne_of_mem_erase hj) hh.symm)]
      rw [he]
      unfold preRateMatrix
      rw [if_pos rfl]
      ring
    unfold rateMatrix
    rw [← Finset.sum_div, hpre, zero_div]
  · have hinner : ∀ i,
        (∑ j in Finset.range (numStates N),
          if j = i then 0 else rateMatrix N m pi r f i j)
          = rowSumOffDiag N m pi i / totalRate N m pi r f := by
      intro i
      have h1 : ∀ j ∈ Finset.range (numStates N),
          (if j = i then 0 else rateMatrix N m pi r f i j)
            = (if j = i then 0 else preRateMatrix N m pi i j) / totalRate N m pi r f := by
        intro j _
        by_cases h : j = i
        · simp [h]
        · rw [if_neg h, if_neg h]
          rfl
      rw [Finset.sum_congr rfl h1, ← Finset.sum_div, ifRow_pre_eq_rowSum]
    calc ∑ i in Finset.range (numStates N),
        stateFreq N pi r f i *
          (∑ j in Finset.range (numStates N),
            if j = i then 0 else rateMatrix N m pi r f i j)
        = ∑ i in Finset.range (numStates N),
            stateFreq N pi r f i * rowSumOffDiag N m pi i / totalRate N m pi r f := by
          apply Finset.sum_congr rfl
          intro i _
          rw [hinner i, mul_div_assoc]
      _ = (∑ i in Finset.range (numStates N),
            stateFreq N pi r f i * rowSumOffDiag N m pi i) / totalRate N m pi r f := by
          rw [Finset.sum_div]
      _ = totalRate N m pi r f / totalRate N m pi r f := rfl
      _ = 1 := div_self ht

lemma rowSumOffDiag_witness_boundary :
    ∀ s, s < 4 → rowSumOffDiag 2 mOnes piUnif s = 3 / 4 := by
  intro s hs
  interval_cases s <;>
  · rw [rowSumOffDiag]
    simp only [show numStates 2 = 10 from rfl, Finset.sum_range_succ, Finset.sum_range_zero]
    norm_num [computeProbBoundaryMutation, decomposeState, mutCoeff, mOnes, piUnif,
      Option.some_ne_none]

lemma rowSumOffDiag_witness_poly :
    ∀ s, 4 ≤ s → s < 10 → rowSumOffDiag 2 mOnes piUnif s = 1 := by
  intro s hs1 hs2
  interval_cases s <;>
  · rw [rowSumOffDiag]
    simp only [show numStates 2 = 10 from rfl, Finset.sum_range_succ, Finset.sum_range_zero]
    norm_num [computeProbBoundaryMutation, decomposeState, mutCoeff, mOnes, piUnif,
      Option.some_ne_none]

lemma normConst_witness : computeNormConst 2 piUnif rOnes = 4 / 7 := by
  norm_num [computeNormConst, computeSumFreqBoundaryStates, computeSumFreqPolyStates,
    harmonic, piUnif, rOnes, Finset.sum_range_succ]

lemma stateFreq_witness_boundary :
    ∀ s, s < 4 → stateFreq 2 piUnif rOnes fZero s = 1 / 7 := by
  intro s hs
  interval_cases s <;>
    · rw [stateFreq, if_pos (by norm_num), normConst_witness]
      norm_num [piUnif]

lemma stateFreq_witness_poly :
    ∀ s, 4 ≤ s → s < 10 → stateFreq 2 piUnif rOnes fZero s = 1 / 14 := by
  intro s hs1 hs2
  interval_cases s <;>
    · rw [stateFreq, if_neg (by norm_num)]
      norm_num [decomposeState, normConst_witness, piUnif, rOnes, fZero]

lemma totalRate_witness : totalRate 2 mOnes piUnif rOnes fZero = 6 / 7 := by
  rw [totalRate]
  norm_num [numStates, Finset.sum_range_succ,
    rowSumOffDiag_witness_boundary 0 (by norm_num),
    rowSumOffDiag_witness_boundary 1 (by norm_num),
    rowSumOffDiag_witness_boundary 2 (by norm_num),
    rowSumOffDiag_witness_boundary 3 (by norm_num),
    rowSumOffDiag_witness_poly 4 (by norm_num) (by norm_num),
    rowSumOffDiag_witness_poly 5 (by norm_num) (by norm_num),
    rowSumOffDiag_witness_poly 6 (by norm_num) (by norm_num),
    rowSumOffDiag_witness_poly 7 (by norm_num) (by norm_num),
    rowSumOffDiag_witness_poly 8 (by norm_num) (by norm_num),
    rowSumOffDiag_witness_poly 9 (by norm_num) (by norm_num),
    stateFreq_witness_boundary 0 (by norm_num),
    stateFreq_witness_boundary 1 (by norm_num),
    stateFreq_witness_boundary 2 (by norm_num),
    stateFreq_witness_boundary 3 (by norm_num),
    stateFreq_witness_poly 4 (by norm_num) (by norm_num),
    stateFreq_witness_poly 5 (by norm_num) (by norm_num),
    stateFreq_witness_poly 6 (by norm_num) (by norm_num),
    stateFreq_witness_poly 7 (by norm_num) (by norm_num),
    stateFreq_witness_poly 8 (by norm_num) (by norm_num),
    stateFreq_witness_poly 9 (by norm_num) (by norm_num)]

/-- Witness for C1 at N = 2 with the all-ones mutation matrix, uniform
boundary frequencies, all-ones symmetric component and zero antisymmetric
component: the accumulated total rate is nonzero and the normalized
frequency-weighted total transition rate is 1. -/
theorem updatePoMoStatesAndRateMatrix_generator_witness :
    totalRate 2 mOnes piUnif rOnes fZero ≠ 0 ∧
    (∑ i in Finset.range (numStates 2),
      stateFreq 2 piUnif rOnes fZero i *
        (∑ j in Finset.range (numStates 2),
          if j = i then 0 else rateMatrix 2 mOnes piUnif rOnes fZero i j)) = 1 := by
  have ht : totalRate 2 mOnes piUnif rOnes fZero ≠ 0 := by
    rw [totalRate_witness]
    norm_num
  exact ⟨ht, (updatePoMoStatesAndRateMatrix_generator 2 mOnes piUnif rOnes fZero ht).2.2.2⟩

/-- C5: state decomposition and composition are mutually inverse bijections
on the id range [0, numStates N) with numStates N = 4 + 6*(N-1): boundary
ids 0..3 decompose to (N, state, none); composing any pair index p < 6 with
a count 1 ≤ i ≤ N-1 gives an in-range id decomposing back to that triple;
every non-boundary in-range id is the composition of a unique such pair and
count; and decomposition fails (out-of-range error) for every id at or
beyond 4 + 6*(N-1). -/
theorem decomposeState_composeState_bijection (N : ℕ) (h2 : 2 ≤ N) :
    (∀ s, s < 4 → decomposeState N s = some (N, s, none)) ∧
    (∀ p i, p < 6 → 1 ≤ i → i ≤ N - 1 →
      composeState N p i < numStates N ∧
      decomposeState N (composeState N p i) = some (i, pairNt1 p, some (pairNt2 p))) ∧
    (∀ s, 4 ≤ s → s < numStates N →
      ∃ p i, p < 6 ∧ 1 ≤ i ∧ i ≤ N - 1 ∧ composeState N p i = s ∧
        decomposeState N s = some (i, pairNt1 p, some (pairNt2 p)) ∧
        ∀ p' i', p' < 6 → 1 ≤ i' → i' ≤ N - 1 → composeState N p' i' = s →
          p' = p ∧ i' = i) ∧
    (∀ s, numStates N ≤ s → decomposeState N s = none) := by
  refine ⟨fun s hs => decomposeState_boundary N s hs, ?_, ?_, ?_⟩
  · intro p i hp hi1 hi2
    have hple : p * (N - 1) ≤ 5 * (N - 1) := Nat.mul_le_mul_right _ (by omega)
    constructor
    · unfold composeState numStates
      omega
    · have hcomp : composeState N p i = 4 + p * (N - 1) + (i - 1) := rfl
      rw [hcomp, decomposeState_poly N p (i - 1) h2 hp (by omega)]
      have : i - 1 + 1 = i := by omega
      rw [this]
  · intro s h4 hs
    obtain ⟨p, k, hp, hk, hrep⟩ := poly_state_rep N s h2 h4 hs
    refine ⟨p, k + 1, hp, by omega, by omega, ?_, ?_, ?_⟩
    · unfold composeState
      omega
    · rw [hrep]
      exact decomposeState_poly N p k h2 hp hk
    · intro p' i' hp' hi1' hi2' heq
      unfold composeState at heq
      subst hrep
      interval_cases p <;> interval_cases p' <;> constructor <;> omega
  · intro s hs
    unfold numStates at hs
    unfold decomposeState
    split_ifs <;> first | rfl | (exfalso; omega)

/-- Witness for C5 at N = 3: boundary decomposition of id 2, round trip of
pair 4 (C,T) at count 2, representation of id 9, failure at id 16. -/
theorem decomposeState_composeState_bijection_witness :
    decomposeState 3 2 = some (3, 2, none) ∧
    (composeState 3 4 2 < numStates 3 ∧
      decomposeState 3 (composeState 3 4 2) = some (2, pairNt1 4, some (pairNt2 4))) ∧
    decomposeState 3 16 = none := by
  have h := decomposeState_composeState_bijection 3 (by omega)
  exact ⟨h.1 2 (by omega), h.2.1 4 2 (by omega) (by omega) (by omega),
    h.2.2.2 16 (by decide)⟩

/-- C4 counterexample: at N = 2, a Jukes-Cantor adapter matrix, uniform
boundary frequencies and target theta = 1/10, the raw polymorphism mass
computeSumFreqPolyStates()/harmonic(N-1) after normalizeMutationRates is
1/9, not the target theta = 1/10: the rescaled mass is
theta/(1 - harmonic(N-1)*theta), not theta. -/
theorem normalizeMutationRates_raw_poly_counterexample :
    computeSumFreqPolyStates 2 piUnif (mutationRatesSymNormalized 2 qJC piUnif (1 / 10))
        / harmonic 1 ≠ (1 / 10 : ℚ) := by
  norm_num [computeSumFreqPolyStates, mutationRatesSymNormalized, mNormFactor, thetaBM,
    mutationRatesSym, mutationRatesRaw, harmonic, qJC, piUnif, Finset.sum_range_succ]

/-- C4 (amended): after normalizeMutationRates rescales the symmetric
component by m_norm = theta / (theta_bm * (1 - harmonic(N-1)*theta)), the
raw polymorphism mass computeSumFreqPolyStates()/harmonic(N-1) equals
theta/(1 - harmonic(N-1)*theta), and the implied stationary polymorphism
mass - computeNormConst() * computeSumFreqPolyStates(), the total
stationary frequency of the polymorphic states - divided by harmonic(N-1)
equals the target theta exactly, for any target theta (fixed or
estimated). -/
theorem normalizeMutationRates_normalized_poly_mass
    (N : ℕ) (Q : ℕ → ℕ → ℚ) (pi : ℕ → ℚ) (theta : ℚ) (h2 : 2 ≤ N)
    (hsum : computeSumFreqBoundaryStates pi = 1)
    (hpoly : computeSumFreqPolyStates N pi (mutationRatesSym Q pi) ≠ 0)
    (hden : 1 - harmonic (N - 1) * theta ≠ 0) :
    computeSumFreqPolyStates N pi (mutationRatesSymNormalized N Q pi theta)
        / harmonic (N - 1)
      = theta / (1 - harmonic (N - 1) * theta) ∧
    computeNormConst N pi (mutationRatesSymNormalized N Q pi theta) *
        computeSumFreqPolyStates N pi (mutationRatesSymNormalized N Q pi theta)
        / harmonic (N - 1)
      = theta := by
  have hH : harmonic (N - 1) ≠ 0 := ne_of_gt (harmonic_pos _ (by omega))
  have hlin : computeSumFreqPolyStates N pi (mutationRatesSymNormalized N Q pi theta)
      = mNormFactor N Q pi theta
          * computeSumFreqPolyStates N pi (mutationRatesSym Q pi) := by
    unfold computeSumFreqPolyStates mutationRatesSymNormalized
    simp only [Finset.sum_range_succ, Finset.sum_range_zero]
    ring
  have hP' : computeSumFreqPolyStates N pi (mutationRatesSymNormalized N Q pi theta)
      = harmonic (N - 1) * theta / (1 - harmonic (N - 1) * theta) := by
    rw [hlin]
    unfold mNormFactor thetaBM
    field_simp
    ring
  constructor
  · rw [hP']
    field_simp
    ring
  · unfold computeNormConst
    rw [hsum, hP']
    have h1p : 1 + harmonic (N - 1) * theta / (1 - harmonic (N - 1) * theta)
        = 1 / (1 - harmonic (N - 1) * theta) := by
      field_simp
    rw [h1p]
    field_simp

/-- Witness for C4's amended theorem at N = 2, Jukes-Cantor adapter matrix,
uniform boundary frequencies, theta = 1/10. -/
theorem normalizeMutationRates_normalized_poly_mass_witness :
    computeNormConst 2 piUnif (mutationRatesSymNormalized 2 qJC piUnif (1 / 10)) *
        computeSumFreqPolyStates 2 piUnif (mutationRatesSymNormalized 2 qJC piUnif (1 / 10))
        / harmonic 1
      = 1 / 10 :=
  (normalizeMutationRates_normalized_poly_mass 2 qJC piUnif (1 / 10) (by omega)
    (by norm_num [computeSumFreqBoundaryStates, piUnif, Finset.sum_range_succ])
    (by norm_num [computeSumFreqPolyStates, mutationRatesSym, mutationRatesRaw,
      qJC, piUnif, harmonic, Finset.sum_range_succ])
    (by norm_num [harmonic, Finset.sum_range_succ])).2

lemma watterson_foldl (obs : List PoMoObs) : ∀ (a b : ℕ) (c : ℚ),
    obs.foldl wattersonStep (a, b, c) =
      (a + ((obs.filter (fun e => e.j2 == 0)).map (fun e => e.freq)).sum,
       b + ((obs.filter (fun e => e.j2 != 0)).map (fun e => e.freq)).sum,
       c + ((obs.filter (fun e => e.j2 != 0)).map
         (fun e => (e.freq : ℚ) / harmonic (e.j1 + e.j2 - 1))).sum) := by
  induction obs with
  | nil =>
    intro a b c
    simp
  | cons e t ih =>
    intro a b c
    by_cases h : e.j2 = 0
    · rw [List.foldl_cons,
        show wattersonStep (a, b, c) e = (a + e.freq, b, c) from by
          rw [wattersonStep, if_pos h],
        ih (a + e.freq) b c,
        show List.filter (fun x => x.j2 == 0) (e :: t)
            = e :: List.filter (fun x => x.j2 == 0) t from by
          simp [List.filter_cons, h],
        show List.filter (fun x => x.j2 != 0) (e :: t)
            = List.filter (fun x => x.j2 != 0) t from by
          simp [List.filter_cons, h]]
      simp only [List.map_cons, List.sum_cons]
      exact congrArg₂ Prod.mk (by omega) (congrArg₂ Prod.mk (by omega) (by ring))
    · rw [List.foldl_cons,
        show wattersonStep (a, b, c) e
            = (a, b + e.freq, c + (e.freq : ℚ) / harmonic (e.j1 + e.j2 - 1)) from by
          rw [wattersonStep, if_neg h],
        ih a (b + e.freq) (c + (e.freq : ℚ) / harmonic (e.j1 + e.j2 - 1)),
        show List.filter (fun x => x.j2 == 0) (e :: t)
            = List.filter (fun x => x.j2 == 0) t from by
          simp [List.filter_cons, h],
        show List.filter (fun x => x.j2 != 0) (e :: t)
            = e :: List.filter (fun x => x.j2 != 0) t from by
          simp [List.filter_cons, h]]
      simp only [List.map_cons, List.sum_cons]
      exact congrArg₂ Prod.mk (by omega) (congrArg₂ Prod.mk (by omega) (by ring))

/-- C6: the empirical Watterson theta estimate is, in sampled mode, the
total count of polymorphic-state observations divided by the total count
of all state observations, and in weighted mode the sum over polymorphic
pattern entries of frequency / harmonic(sample_size - 1), with
sample_size = j1 + j2, divided by the total weight of fixed plus
polymorphic pattern entries. -/
theorem estimateEmpiricalWattersonTheta_characterization
    (N : ℕ) (absFreq : ℕ → ℕ) (obs : List PoMoObs) :
    estimateWattersonSampled N absFreq
      = ((∑ i in Finset.Ico 4 (numStates N), absFreq i : ℕ) : ℚ)
          / ((∑ i in Finset.range (numStates N), absFreq i : ℕ) : ℚ) ∧
    estimateWattersonWeighted obs
      = (((obs.filter (fun e => e.j2 != 0)).map
            (fun e => (e.freq : ℚ) / harmonic (e.j1 + e.j2 - 1))).sum)
          / (((((obs.filter (fun e => e.j2 == 0)).map (fun e => e.freq)).sum : ℕ) : ℚ)
             + ((((obs.filter (fun e => e.j2 != 0)).map (fun e => e.freq)).sum : ℕ) : ℚ)) := by
  constructor
  · unfold estimateWattersonSampled
    have hle : 4 ≤ numStates N := by
      unfold numStates
      omega
    have hsplit : ∑ i in Finset.range (numStates N), absFreq i
        = (∑ i in Finset.range 4, absFreq i)
          + ∑ i in Finset.Ico 4 (numStates N), absFreq i := by
      rw [Finset.range_eq_Ico, ← Finset.sum_Ico_consecutive _ (by omega : 0 ≤ 4) hle,
        ← Finset.range_eq_Ico]
    rw [hsplit]
  · unfold estimateWattersonWeighted
    rw [watterson_foldl obs 0 0 0]
    simp

/-- C7: decomposeRateMatrix dispatches by reversibility and configured
matrix-exponential technique: reversible models always get the symmetric
eigendecomposition; non-reversible models get the general eigendecomposition
under MET_EIGEN_DECOMPOSITION, a no-op (deferred decomposition) under
MET_SCALING_SQUARING, and a fatal error for every other technique. -/
theorem decomposeRateMatrix_dispatch_characterization
    (tech : MatrixExpTechnique) :
    decomposeRateMatrixDispatch true tech = .ok .symEigen ∧
    decomposeRateMatrixDispatch false .MET_EIGEN_DECOMPOSITION = .ok .nonrevEigen ∧
    decomposeRateMatrixDispatch false .MET_SCALING_SQUARING = .ok .deferEigen ∧
    (tech ≠ .MET_EIGEN_DECOMPOSITION → tech ≠ .MET_SCALING_SQUARING →
      ∃ msg, decomposeRateMatrixDispatch false tech = .error msg) := by
  cases tech <;> simp [decomposeRateMatrixDispatch]

/-- Witness for C7 at the concrete technique MET_EIGEN3LIB_DECOMPOSITION:
with a non-reversible model it is a fatal error. -/
theorem decomposeRateMatrix_dispatch_characterization_witness :
    ∃ msg, decomposeRateMatrixDispatch false .MET_EIGEN3LIB_DECOMPOSITION
      = .error msg :=
  (decomposeRateMatrix_dispatch_characterization .MET_EIGEN3LIB_DECOMPOSITION).2.2.2
    (by decide) (by decide)

/-- C8: evaluation of the setInitialMutCoeff polymorphism check at a
dataset without any polymorphic observation: two alleles are each fixed in
some patterns (every j2 is zero), theta is not fixed, yet the check passes
because computeSumFreqPolyStatesNoMut is 2*pi_A*pi_C*harmonic(N-1) > 0,
so no fatal error is raised even though the claim (and the source comment
"Check if polymorphism data is available.") requires one. -/
theorem setInitialMutCoeff_check_passes_without_polymorphism :
    hasPolymorphicObs noPolyTwoAlleleObs = false ∧
    setInitialMutCoeffPasses false 2
      (normalizeBoundaryFreqs (rawBoundaryFreqs noPolyTwoAlleleObs)) = true := by
  constructor
  · decide
  · have hval : computeSumFreqPolyStatesNoMut 2
        (normalizeBoundaryFreqs (rawBoundaryFreqs noPolyTwoAlleleObs)) = 1 / 2 := by
      norm_num [computeSumFreqPolyStatesNoMut, normalizeBoundaryFreqs, rawBoundaryFreqs,
        noPolyTwoAlleleObs, harmonic, Finset.sum_range_succ]
    rw [setInitialMutCoeffPasses, hval]
    norm_num

/-- C9 counterexample: the call sequence of getVariables contains no
eigendecomposition step - getVariables calls the adapter's getVariables,
normalizeMutationRates and updatePoMoStatesAndRateMatrix, and returns;
decomposeRateMatrix is invoked separately (e.g. by targetFunk). -/
theorem getVariables_no_eigendecomposition :
    PomoCall.eigenDecompose ∉ pomoGetVariablesCalls := by
  decide

/-- C9 (amended): the free-parameter count is the adapter's count plus 1
exactly when theta is unfixed; setVariables leaves the adapter's parameter
slots (indices up to adapterNDim) unchanged and writes theta at the next
free index getNDim() when theta is unfixed (and writes nothing when
fixed); getVariables reads theta back from that index; and every
getVariables call performs re-normalization of the mutation rates and a
full rate-matrix rebuild before returning - but not the
eigendecomposition, which the claim wrongly included. -/
theorem parameter_interface_characterization
    (adapterNDim : ℕ) (theta : ℚ) (w v : ℕ → ℚ) :
    (getNDim true adapterNDim = adapterNDim ∧
      getNDim false adapterNDim = adapterNDim + 1) ∧
    (∀ k, k ≤ adapterNDim → pomoSetVariables false adapterNDim theta w k = w k) ∧
    pomoSetVariables false adapterNDim theta w (getNDim false adapterNDim) = theta ∧
    (∀ k, pomoSetVariables true adapterNDim theta w k = w k) ∧
    pomoGetVariablesTheta false adapterNDim theta v = v (getNDim false adapterNDim) ∧
    pomoGetVariablesTheta true adapterNDim theta v = theta ∧
    (PomoCall.normalizeRates ∈ pomoGetVariablesCalls ∧
      PomoCall.rebuildRateMatrix ∈ pomoGetVariablesCalls ∧
      PomoCall.eigenDecompose ∉ pomoGetVariablesCalls) := by
  refine ⟨⟨rfl, rfl⟩, ?_, ?_, fun k => rfl, rfl, rfl, by decide, by decide, by decide⟩
  · intro k hk
    rw [pomoSetVariables, if_neg (Bool.false_ne_true)]
    exact if_neg (by simp [getNDim]; omega)
  · rw [pomoSetVariables, if_neg (Bool.false_ne_true)]
    exact if_pos rfl

/-- Witness for C9's amended theorem at adapterNDim = 3, theta = 5, the
identity parameter array: slot 2 is untouched and slot getNDim() = 4
receives theta. -/
theorem parameter_interface_characterization_witness :
    pomoSetVariables false 3 5 (fun k => (k : ℚ)) 2 = ((2 : ℕ) : ℚ) ∧
    pomoSetVariables false 3 5 (fun k => (k : ℚ)) (getNDim false 3) = 5 := by
  have h := parameter_interface_characterization 3 5 (fun k => (k : ℚ)) (fun k => (k : ℚ))
  exact ⟨h.2.1 2 (by omega), h.2.2.1⟩

/-- C10: when theta is not fixed, getVariables assigns theta from
variables[getNDim()] but computes its contribution to the returned change
flag by comparing the previous theta with variables[getNDim()+1]; hence an
input exists that changes theta while the returned flag is exactly the
adapter's flag. -/
theorem getVariables_theta_flag_mismatch
    (adapterNDim : ℕ) (adapterChanged : Bool) (theta : ℚ) (v : ℕ → ℚ) :
    pomoGetVariablesTheta false adapterNDim theta v = v (getNDim false adapterNDim) ∧
    pomoGetVariablesChanged false adapterNDim adapterChanged theta v
      = (adapterChanged || decide (theta ≠ v (getNDim false adapterNDim + 1))) ∧
    ∃ theta' v', pomoGetVariablesTheta false adapterNDim theta' v' ≠ theta' ∧
      pomoGetVariablesChanged false adapterNDim adapterChanged theta' v' = adapterChanged := by
  refine ⟨rfl, rfl,
    0, fun k => if k = getNDim false adapterNDim then 1 else 0, ?_, ?_⟩
  · rw [pomoGetVariablesTheta, if_neg (Bool.false_ne_true), if_pos rfl]
    norm_num
  · rw [pomoGetVariablesChanged, if_neg (Bool.false_ne_true),
      if_neg (show ¬(getNDim false adapterNDim + 1 = getNDim false adapterNDim) from
        by omega)]
    simp

end IQTreePoMo
